import Mathlib

/-!
Verification of the graph utilities of the CausalDiscoveryToolbox repository
(`utils/Graph.py`): the weighted directed-graph structure `DirectedGraph`,
the cycle test `cyclic`, the cycle enumerator `cycles`, and the
acyclification loop `remove_cycles`.

The Python source is embedded shallowly:

* node labels are strings (the spec, section 6, fixes input labels to be
  opaque string identifiers), edge weights are rationals standing for the
  Python floats (the source only ever compares weights, it never does
  arithmetic on them, so exact rationals are a faithful carrier for the
  decimal literals involved);
* `self._graph`, a `defaultdict` of dicts, is an insertion-ordered
  association list of association lists; dictionary iteration order is
  insertion order, exactly as in Python 3.6+, and `defaultdict`
  auto-vivification on `__getitem__` is modelled explicitly;
* functions whose Python originals can raise return a result type carrying
  the raised exception kind; the recursion/looping of `cyclic`, `cycles`
  and `remove_cycles` is driven by an explicit fuel parameter, and running
  out of fuel is a separate `outOfFuel` outcome, never confused with any
  real behaviour of the source.
-/

namespace CDT

/-- Exception kinds that the embedded Python code can raise, plus the
artificial `outOfFuel` outcome used to make fueled loops total. -/
inductive PyErr : Type where
  | keyError : PyErr
  | stopIteration : PyErr
  | indexError : PyErr
  | valueError : PyErr
  | typeError : PyErr
  | outOfFuel : PyErr
deriving DecidableEq, Repr

/-- Result of running an embedded Python expression: a value, or a raised
exception. -/
inductive PyRes (α : Type) : Type where
  | ok : α → PyRes α
  | err : PyErr → PyRes α
deriving DecidableEq, Repr

/-- An unweighted adjacency mapping, as consumed by `cyclic` and `cycles`:
a Python dict mapping vertices to lists of neighbour vertices, in
insertion order. -/
abbrev AdjList (N : Type) : Type := List (N × List N)

variable {N : Type} [DecidableEq N]

/-- Python `d[k]` read on a plain dict: the value at the first (unique)
occurrence of the key, if any. -/
def dget (d : List (N × α)) (k : N) : Option α :=
  match d with
  | [] => none
  | (k', v) :: rest => if k' = k then some v else dget rest k

/-- Python `d[k] = v`: overwrite the value in place if the key is present
(the key keeps its position), else append the new binding at the end. -/
def dset (d : List (N × α)) (k : N) (v : α) : List (N × α) :=
  match d with
  | [] => [(k, v)]
  | (k', v') :: rest => if k' = k then (k', v) :: rest else (k', v') :: dset rest k v

/-- Python `del d[k]` for a key that is present: drop the binding
(callers check presence; on an absent key this is the identity and the
call site models the `KeyError` itself). -/
def ddel (d : List (N × α)) (k : N) : List (N × α) :=
  match d with
  | [] => []
  | (k', v') :: rest => if k' = k then rest else (k', v') :: ddel rest k

/-- Python `g.get(vertex, ())` used by `cyclic`: lookup with default. -/
def pyGetD (g : AdjList N) (k : N) : List N :=
  (dget g k).getD []

/-!
`cyclic(g)` (Graph.py lines 12-39): recursive depth-first search keeping a
global `visited` set and the current recursion-stack set `path`.  The
mutable sets become threaded list parameters: `visit` returns the cycle
flag together with the updated `visited`; `path` needs no threading
because Python restores it (`path.remove(vertex)`) on every `False`
return, and a `True` return short-circuits all the way out.

The recursion is fueled.  One fuel unit is spent per `visit` call on a
not-yet-visited vertex; since every such call adds the vertex to
`visited`, any fuel at least the number of distinct vertices is enough,
and exhaustion is reported as `outOfFuel` rather than silently guessed.
-/

/-- The `for neighbour in g.get(vertex, ())` loop inside `visit`:
`vf` is the recursive `visit` one fuel level down. -/
def visitStep (vf : List N → List N → N → PyRes (Bool × List N)) (path : List N) :
    List N → List N → PyRes (Bool × List N)
  | [], visited => .ok (false, visited)
  | nb :: rest, visited =>
    if nb ∈ path then .ok (true, visited)
    else
      match vf visited path nb with
      | .err e => .err e
      | .ok (true, vis) => .ok (true, vis)
      | .ok (false, vis) => visitStep vf path rest vis

/-- Embedding of the inner `visit(vertex)` of `cyclic`. -/
def visit (g : AdjList N) : Nat → List N → List N → N → PyRes (Bool × List N)
  | fuel, visited, path, v =>
    if v ∈ visited then .ok (false, visited)
    else
      match fuel with
      | 0 => .err .outOfFuel
      | fuel' + 1 =>
        visitStep (fun vis p nb => visit g fuel' vis p nb) (v :: path)
          (pyGetD g v) (visited ++ [v])

/-- The top-level `any(visit(v) for v in g)` of `cyclic`: short-circuiting
fold over the dict's keys, threading `visited`. -/
def cyclicAny (g : AdjList N) (fuel : Nat) : List N → List N → PyRes Bool
  | [], _ => .ok false
  | v :: rest, vis =>
    match visit g fuel vis [] v with

    | .err e => .err e
    | .ok (true, _) => .ok true
    | .ok (false, vis') => cyclicAny g fuel rest vis'

/-- Embedding of `cyclic(g)` (Graph.py lines 12-39). -/
def cyclic (g : AdjList N) (fuel : Nat) : PyRes Bool :=
  cyclicAny g fuel (g.map Prod.fst) []

/-!
`cycles(g)` (Graph.py lines 42-67): for every key `node`, enumerate by an
explicit-stack DFS all simple paths from `node` back to `node`, and return
`[node] + path` for each.  The fringe is a Python list used as a stack
(append/pop at the right end); it is modelled with its top at the head, so
Python's `fringe.append` of the neighbours in order puts them on the
modelled fringe in reverse.  `graph[state]` is a plain-dict subscript and
raises `KeyError` when `state` has no entry.  Fuel counts `while fringe`
iterations.
-/

/-- The `while fringe` loop of the inner `dfs(graph, start, end)` of
`cycles`; `acc` collects the yielded paths in yield order. -/
def dfsLoop (graph : AdjList N) (endv : N) :
    Nat → List (N × List N) → List (List N) → PyRes (List (List N))
  | _, [], acc => .ok acc
  | 0, _ :: _, _ => .err .outOfFuel
  | fuel + 1, (state, path) :: rest, acc =>
    if path ≠ [] ∧ state = endv then
      dfsLoop graph endv fuel rest (acc ++ [path])
    else
      match dget graph state with
      | none => .err .keyError
      | some nbrs =>
        let pushes := (nbrs.filter (fun nb => nb ∉ path)).map (fun nb => (nb, path ++ [nb]))
        dfsLoop graph endv fuel (pushes.reverse ++ rest) acc

/-- Embedding of the inner `dfs(graph, start, end)` generator of `cycles`,
run to completion. -/
def dfs (graph : AdjList N) (start endv : N) (fuel : Nat) : PyRes (List (List N)) :=
  dfsLoop graph endv fuel [(start, [])] []

/-- The `[[node] + path for node in g for path in dfs(g, node, node) if path]`
comprehension of `cycles`, over the given key list. -/
def cyclesAux (g : AdjList N) (fuel : Nat) : List N → PyRes (List (List N))
  | [] => .ok []
  | node :: rest =>
    match dfs g node node fuel with
    | .err e => .err e
    | .ok paths =>
      match cyclesAux g fuel rest with
      | .err e => .err e
      | .ok others => .ok (((paths.filter (· ≠ [])).map (node :: ·)) ++ others)

/-- Embedding of `cycles(g)` (Graph.py lines 42-67). -/
def cycles (g : AdjList N) (fuel : Nat) : PyRes (List (List N)) :=
  cyclesAux g fuel (g.map Prod.fst)

/-!
The `DirectedGraph` class (Graph.py lines 80-274).  Node labels are
strings (spec section 6: opaque string identifiers) and weights are exact
rationals standing for the Python floats.  `self._graph` is a
`defaultdict(dict)`; both levels are insertion-ordered association lists,
and the `defaultdict` auto-vivification performed by a bare
`self._graph[k]` read is `defaultGet` below.
-/

/-- A node label. -/
abbrev Node : Type := String

/-- An edge weight. -/
abbrev Wt : Type := ℚ

/-- The inner dict of `self._graph`: targets of one source, with weights. -/
abbrev Inner : Type := List (Node × Wt)

/-- The `self._graph` structure of `DirectedGraph`. -/
abbrev Graph : Type := List (Node × Inner)

/-- Result of a mutating `DirectedGraph` method: the new graph, or an
exception together with the (possibly mutated) graph left behind. -/
inductive PyResult : Type where
  | ok : Graph → PyResult
  | exn : PyErr → Graph → PyResult
deriving DecidableEq, Repr

/-- A bare `self._graph[k]` read on the `defaultdict`: return the entry,
auto-vivifying an empty one (appended in insertion order) if absent. -/
def defaultGet (g : Graph) (k : Node) : Inner × Graph :=
  match dget g k with
  | some d => (d, g)
  | none => ([], g ++ [(k, [])])

/-- Embedding of `DirectedGraph.add` (Graph.py lines 102-111):
`self._graph[node1][node2] = weight`. -/
def add (g : Graph) (node1 node2 : Node) (weight : Wt) : Graph :=
  let p := defaultGet g node1
  dset p.2 node1 (dset p.1 node2 weight)

/-- Embedding of `DirectedGraph.add_edges` (Graph.py lines 92-100). -/
def add_edges (g : Graph) (connections : List (Node × Node × Wt)) : Graph :=
  connections.foldl (fun acc c => add acc c.1 c.2.1 c.2.2) g

/-- The graph built from an input triple list on a fresh `DirectedGraph`. -/
def graphOfTriples (ts : List (Node × Node × Wt)) : Graph :=
  add_edges [] ts

/-- Embedding of `DirectedGraph.remove_edge` (Graph.py lines 128-136):
`del self._graph[node1][node2]`, then drop `node1`'s entry if it became
empty.  When the edge is absent the `del` raises `KeyError`, but the bare
`self._graph[node1]` read has already auto-vivified an empty entry for a
missing `node1`, and that entry persists past the exception. -/
def remove_edge (g : Graph) (node1 node2 : Node) : PyResult :=
  let p := defaultGet g node1
  match dget p.1 node2 with
  | none => .exn .keyError p.2
  | some _ =>
    let d' := ddel p.1 node2
    let g₂ := dset p.2 node1 d'
    if d'.length = 0 then .ok (ddel g₂ node1) else .ok g₂

/-- The tail of `reverse_edge` once the weight to carry is settled:
`self.remove_edge(node1, node2)` then `self.add(node2, node1, weight)`. -/
def reverseCont (node1 node2 : Node) (g' : Graph) (w : Wt) : PyResult :=
  match remove_edge g' node1 node2 with
  | .exn e h => .exn e h
  | .ok g₂ => .ok (add g₂ node2 node1 w)

/-- The falsy-weight path of `reverse_edge`: the original weight is read
by a bare `self._graph[node1][node2]`, which auto-vivifies `node1` and
raises `KeyError` when the edge is absent. -/
def reverseFalsy (g : Graph) (node1 node2 : Node) : PyResult :=
  match dget (defaultGet g node1).1 node2 with
  | none => .exn .keyError (defaultGet g node1).2
  | some w0 => reverseCont node1 node2 (defaultGet g node1).2 w0

/-- Embedding of `DirectedGraph.reverse_edge` (Graph.py lines 113-126).
Python's `if not weight:` treats both `None` and `0.0` as falsy, so a
caller-supplied weight of `0` is replaced by the original edge weight. -/
def reverse_edge (g : Graph) (node1 node2 : Node) : Option Wt → PyResult
  | some w => if w = 0 then reverseFalsy g node1 node2 else reverseCont node1 node2 g w
  | none => reverseFalsy g node1 node2

/-- The `if x not in nodes: nodes.append(x)` step of `get_list_nodes`. -/
def addIfAbsent (l : List Node) (x : Node) : List Node :=
  if x ∈ l then l else l ++ [x]

/-- Embedding of `DirectedGraph.get_list_nodes` (Graph.py lines 151-166):
sources and targets in first-discovery order, without repetitions. -/
def get_list_nodes (g : Graph) : List Node :=
  g.foldl (fun nodes e => e.2.foldl (fun ns jw => addIfAbsent ns jw.1) (addIfAbsent nodes e.1)) []

/-- The `dict_nw[i].append(j)` step on the `defaultdict(list)` of `get_dict_nw`. -/
def dictAppend (d : AdjList Node) (i j : Node) : AdjList Node :=
  match dget d i with
  | some l => dset d i (l ++ [j])
  | none => d ++ [(i, [j])]

/-- Embedding of `DirectedGraph.get_dict_nw` (Graph.py lines 212-226):
the unweighted adjacency view; every target also becomes a key. -/
def get_dict_nw (g : Graph) : AdjList Node :=
  g.foldl (fun dnw e =>
    e.2.foldl (fun acc jw =>
      let acc₁ := dictAppend acc e.1 jw.1
      if (dget acc₁ jw.1).isSome then acc₁ else acc₁ ++ [(jw.1, [])]) dnw) []

/-!
`get_list_edges` (Graph.py lines 168-190).  The weight-ordered variants
run Python's `sorted` on the list of `(weight, [source, target])` pairs:
a stable sort under the lexicographic tuple/list comparison, which
compares weights first and breaks weight ties by comparing the
`[source, target]` lists (strings compare by code point).  Python's
`sorted` is a stable sort, and any two stable sorts under the same total
preorder produce the identical output list, so it is modelled by the
stable `List.insertionSort` under the corresponding total preorder.  On
a graph with no edges the sorted branches raise
`ValueError`: `zip(*[])` is empty and unpacking it into
`weights, list_edges` fails.
-/

/-- Python's `<` on lists of characters (code-point lexicographic). -/
def charListLt : List Char → List Char → Bool
  | [], [] => false
  | [], _ :: _ => true
  | _ :: _, [] => false
  | c :: cs, d :: ds =>
    if c.toNat < d.toNat then true
    else if d.toNat < c.toNat then false
    else charListLt cs ds

/-- Python's `<` on strings. -/
def pyStrLt (a b : String) : Bool :=
  charListLt a.data b.data

/-- Python's `<` on the `(weight, [source, target])` tuples handed to
`sorted`: lexicographic on the weight, then the source, then the target. -/
def pyTupLt (a b : Wt × Node × Node) : Bool :=
  decide (a.1 < b.1) ||
    (decide (a.1 = b.1) &&
      (pyStrLt a.2.1 b.2.1 || (decide (a.2.1 = b.2.1) && pyStrLt a.2.2 b.2.2)))

/-- The order of Python's ascending `sorted`: `a` may come before `b`
when `b < a` fails. -/
def pyTupLe (a b : Wt × Node × Node) : Prop :=
  pyTupLt b a = false

instance : DecidableRel pyTupLe := fun a b => instDecidableEqBool (pyTupLt b a) false

/-- The order of `sorted(..., reverse=True)`: `a` may come before `b`
when `a < b` fails (ties keep their original order, as in Python's
stable reversed sort). -/
def pyTupGe (a b : Wt × Node × Node) : Prop :=
  pyTupLt a b = false

instance : DecidableRel pyTupGe := fun a b => instDecidableEqBool (pyTupLt a b) false

/-- The `(weight, (source, target))` rows of the graph in its natural
iteration (insertion) order, as zipped by `get_list_edges` before
sorting. -/
def naturalPairs (g : Graph) : List (Wt × Node × Node) :=
  g.flatMap (fun e => e.2.map (fun jw => (jw.2, e.1, jw.1)))

/-- Embedding of `DirectedGraph.get_list_edges` (Graph.py lines 168-190):
returns `(list_edges, weights)`. -/
def get_list_edges (g : Graph) (order_by_weight descending : Bool) :
    PyRes (List (Node × Node) × List Wt) :=
  let pairs := naturalPairs g
  if order_by_weight && descending then
    match pairs.insertionSort pyTupGe with
    | [] => .err .valueError
    | s@(_ :: _) => .ok (s.map (fun p => p.2), s.map (fun p => p.1))
  else if order_by_weight then
    match pairs.insertionSort pyTupLe with
    | [] => .err .valueError
    | s@(_ :: _) => .ok (s.map (fun p => p.2), s.map (fun p => p.1))
  else .ok (pairs.map (fun p => p.2), pairs.map (fun p => p.1))

/-!
`remove_cycles` (Graph.py lines 246-271).  The method first captures
`list_ordered_edges = self.get_list_edges()` — note that this is the
returned *pair* `(list_edges, weights)`, not the edge list.  Each loop
iteration picks `s_cycle = cycles(...)[0]` and then runs

    r_edge = next(edge for edge in list_ordered_edges if
                  any(edge == s_cycle[i:i + 2] for i in range(len(s_cycle) - 1)))

Since `list_ordered_edges` is a 2-tuple, the generator's `edge` ranges
over exactly two Python values: the whole edge list (a list of two-string
lists) and the whole weight list (a list of floats).  Each is compared by
Python `==` against the two-node slices `s_cycle[i:i+2]` (lists of string
labels).  `PyV`/`pyEq` model Python equality on just these value shapes:
a two-element list is never `==` to a string, and a float is never `==`
to a string, so the comparison is `False` for both candidates and
`next()` raises `StopIteration` (proved below as `selectREdge_eq_none`).
-/

/-- The Python values compared by the `r_edge` generator of
`remove_cycles`: a node label (a string), a float weight, or a
`[source, target]` list. -/
inductive PyV : Type where
  | label : Node → PyV
  | num : Wt → PyV
  | pair : Node → Node → PyV
deriving DecidableEq, Repr

/-- Python `==` on `PyV` values: equality within a shape; across shapes a
string never equals a float or a list, and a list never equals a
non-list. -/
def pyEq : PyV → PyV → Bool
  | .label a, .label b => decide (a = b)
  | .num a, .num b => decide (a = b)
  | .pair a b, .pair c d => decide (a = c) && decide (b = d)
  | _, _ => false

/-- Python `==` on lists of `PyV` values: same length and elementwise
`pyEq`. -/
def pyListEq (a b : List PyV) : Bool :=
  decide (a.length = b.length) && (a.zip b).all (fun p => pyEq p.1 p.2)

/-- The slices `s_cycle[i:i+2]` for `i in range(len(s_cycle) - 1)`. -/
def cycleSlices (sc : List Node) : List (List Node) :=
  (List.range (sc.length - 1)).map (fun i => (sc.drop i).take 2)

/-- The `r_edge = next(...)` selection of `remove_cycles`: scan the two
components of the `(list_edges, weights)` pair, returning the index of
the first one that Python-equals some two-node slice of the cycle. -/
def selectREdge (loe : List (Node × Node) × List Wt) (scycle : List Node) : Option Nat :=
  [loe.1.map (fun e => PyV.pair e.1 e.2), loe.2.map PyV.num].findIdx?
    (fun row => (cycleSlices scycle).any (fun s => pyListEq row (s.map PyV.label)))

/-- One iteration of the `while cyclic(...)` loop of `remove_cycles`
(Graph.py lines 250-271), up to its first raised exception.  When
`selectREdge` finds no candidate (always, by `selectREdge_eq_none`),
`next()` raises `StopIteration`.  The `some` branches are provably
unreachable; they model what Python would do if a row did match: using
the edge-list row as `reverse_edge` arguments subscripts the dict with an
unhashable list (`TypeError`), and using the float weights as node keys
misses the string-keyed dict (`KeyError`). -/
def removeCyclesStep (loe : List (Node × Node) × List Wt) (fuel : Nat) (g : Graph) :
    PyRes Graph :=
  match cycles (get_dict_nw g) fuel with
  | .err e => .err e
  | .ok [] => .err .indexError
  | .ok (scycle :: _) =>
    match selectREdge loe scycle with
    | none => .err .stopIteration
    | some 0 => .err .typeError
    | some _ => .err .keyError

/-- The `while cyclic(self.get_dict_nw())` loop of `remove_cycles`, with
the captured `list_ordered_edges` pair `loe`; `loopFuel` bounds the
number of iterations. -/
def removeCyclesLoop (loe : List (Node × Node) × List Wt) (fuel : Nat) :
    Nat → Graph → PyRes Graph
  | 0, g =>
    match cyclic (get_dict_nw g) fuel with
    | .err e => .err e
    | .ok false => .ok g
    | .ok true => .err .outOfFuel
  | lf + 1, g =>
    match cyclic (get_dict_nw g) fuel with
    | .err e => .err e
    | .ok false => .ok g
    | .ok true =>
      match removeCyclesStep loe fuel g with
      | .err e => .err e
      | .ok g' => removeCyclesLoop loe fuel lf g'

/-- Embedding of `DirectedGraph.remove_cycles` (Graph.py lines 246-271):
capture the sorted `(list_edges, weights)` pair once, then loop. -/
def remove_cycles (fuel : Nat) (g : Graph) : PyRes Graph :=
  match get_list_edges g true false with
  | .err e => .err e
  | .ok loe => removeCyclesLoop loe fuel fuel g

/-- The weight of the edge `(a, b)`, the observable the claims talk
about: `self._graph[a][b]` if present. -/
def edgeWeight (g : Graph) (a b : Node) : Option Wt :=
  match dget g a with
  | none => none
  | some d => dget d b

/-- The Python-dict well-formedness invariant: keys are unique at both
levels.  Every graph actually built through the `DirectedGraph` methods
satisfies it; theorems about arbitrary association-list states assume
it. -/
def WFGraph (g : Graph) : Prop :=
  (g.map Prod.fst).Nodup ∧ ∀ e ∈ g, (e.2.map Prod.fst).Nodup

instance : DecidablePred WFGraph := fun g => by unfold WFGraph; infer_instance

/-- The nodes mentioned by an input triple list, in order of mention. -/
def tripleNodes (ts : List (Node × Node × Wt)) : List Node :=
  ts.flatMap (fun t => [t.1, t.2.1])

/-! ### Association-list lemmas -/

theorem dget_dset_eq {α : Type} (d : List (Node × α)) (k : Node) (v : α) :
    dget (dset d k v) k = some v := by
  induction d with
  | nil => simp [dget, dset]
  | cons e rest ih =>
    obtain ⟨k', v'⟩ := e
    by_cases h : k' = k <;> simp [dget, dset, h, ih]

theorem dget_dset_ne {α : Type} (d : List (Node × α)) (k k' : Node) (v : α)
    (h : k' ≠ k) : dget (dset d k v) k' = dget d k' := by
  induction d with
  | nil => simp [dget, dset, Ne.symm h]
  | cons e rest ih =>
    obtain ⟨k₀, v₀⟩ := e
    by_cases h0 : k₀ = k
    · subst h0
      simp [dget, dset, Ne.symm h]
    · by_cases h1 : k₀ = k'
      · subst h1
        simp [dget, dset, h0]
      · simp [dget, dset, h0, h1, ih]

theorem dget_append_ne {α : Type} (d : List (Node × α)) (k k' : Node) (v : α)
    (h : k' ≠ k) : dget (d ++ [(k, v)]) k' = dget d k' := by
  induction d with
  | nil => simp [dget, Ne.symm h]
  | cons e rest ih =>
    obtain ⟨k₀, v₀⟩ := e
    by_cases h1 : k₀ = k' <;> simp [dget, h1, ih]

theorem dget_ddel_ne {α : Type} (d : List (Node × α)) (k k' : Node)
    (h : k' ≠ k) : dget (ddel d k) k' = dget d k' := by
  induction d with
  | nil => simp [ddel]
  | cons e rest ih =>
    obtain ⟨k₀, v₀⟩ := e
    by_cases h0 : k₀ = k
    · subst h0
      simp [dget, ddel, Ne.symm h]
    · by_cases h1 : k₀ = k'
      · subst h1
        simp [dget, ddel, h0]
      · simp [dget, ddel, h0, h1, ih]

theorem dget_ddel_self {α : Type} (d : List (Node × α)) (k : Node)
    (h : (d.map Prod.fst).Nodup) : dget (ddel d k) k = none := by
  induction d with
  | nil => simp [ddel, dget]
  | cons e rest ih =>
    obtain ⟨k₀, v₀⟩ := e
    simp only [List.map_cons, List.nodup_cons] at h
    by_cases h0 : k₀ = k
    · subst h0
      -- the remaining entries cannot hold the key again
      cases hr : dget rest k₀ with
      | none => simpa [ddel]
      | some d' =>
        exfalso
        apply h.1
        clear ih h
        induction rest with
        | nil => simp [dget] at hr
        | cons e' rest' ih' =>
          obtain ⟨k₁, v₁⟩ := e'
          by_cases h1 : k₁ = k₀
          · simp [h1]
          · simp only [dget, if_neg h1] at hr
            simp [ih' hr]
    · simp [ddel, dget, h0, ih h.2]

theorem dget_eq_none_append {α : Type} (d : List (Node × α)) (k : Node)
    (v v' : α) (h : dget d k = none) :
    dset (d ++ [(k, v)]) k v' = d ++ [(k, v')] := by
  induction d with
  | nil => simp [dset]
  | cons e rest ih =>
    obtain ⟨k₀, v₀⟩ := e
    by_cases h0 : k₀ = k
    · simp [dget, h0] at h
    · simp only [dget, if_neg h0] at h
      simp [dset, h0, ih h]

/-! ### Order lemmas for the Python tuple comparison -/

theorem charListLt_irrefl (l : List Char) : charListLt l l = false := by
  induction l with
  | nil => rfl
  | cons c cs ih => simp [charListLt, ih]

theorem charListLt_asymm : ∀ {a b : List Char},
    charListLt a b = true → charListLt b a = false
  | [], [], h => by simp [charListLt] at h
  | [], _ :: _, _ => by simp [charListLt]
  | _ :: _, [], h => by simp [charListLt] at h
  | c :: cs, d :: ds, h => by
    by_cases h1 : c.toNat < d.toNat
    · have h2 : ¬ d.toNat < c.toNat := by omega
      simp [charListLt, h2, h1]
    · by_cases h2 : d.toNat < c.toNat
      · simp [charListLt, h1, h2] at h
      · simp only [charListLt, if_neg h1, if_neg h2] at h
        simp [charListLt, h1, h2, charListLt_asymm h]

theorem pyStrLt_irrefl (s : Node) : pyStrLt s s = false :=
  charListLt_irrefl s.data

theorem charListLt_trans : ∀ {a b c : List Char},
    charListLt a b = true → charListLt b c = true → charListLt a c = true
  | [], b, [], h1, h2 => by
    cases b with
    | nil => simp [charListLt] at h1
    | cons d ds => simp [charListLt] at h2
  | [], _, _ :: _, _, _ => by simp [charListLt]
  | _ :: _, [], _, h1, _ => by simp [charListLt] at h1
  | _ :: _, _ :: _, [], _, h2 => by simp [charListLt] at h2
  | x :: xs, y :: ys, z :: zs, h1, h2 => by
    by_cases hxy : x.toNat < y.toNat <;> by_cases hyz : y.toNat < z.toNat
    · have hxz : x.toNat < z.toNat := by omega
      simp [charListLt, hxz]
    · by_cases hzy : z.toNat < y.toNat
      · simp [charListLt, hyz, hzy] at h2
      · have hyzeq : y.toNat = z.toNat := by omega
        have hxz : x.toNat < z.toNat := by omega
        simp [charListLt, hxz]
    · by_cases hyx : y.toNat < x.toNat
      · simp [charListLt, hxy, hyx] at h1
      · have hxyeq : x.toNat = y.toNat := by omega
        have hxz : x.toNat < z.toNat := by omega
        simp [charListLt, hxz]
    · by_cases hyx : y.toNat < x.toNat
      · simp [charListLt, hxy, hyx] at h1
      · by_cases hzy : z.toNat < y.toNat
        · simp [charListLt, hyz, hzy] at h2
        · simp only [charListLt, if_neg hxy, if_neg hyx] at h1
          simp only [charListLt, if_neg hyz, if_neg hzy] at h2
          have hxz : ¬ x.toNat < z.toNat := by omega
          have hzx : ¬ z.toNat < x.toNat := by omega
          simp [charListLt, hxz, hzx, charListLt_trans h1 h2]

theorem charListLt_eq_of_not : ∀ {a b : List Char},
    charListLt a b = false → charListLt b a = false → a = b
  | [], [], _, _ => rfl
  | [], _ :: _, h1, _ => by simp [charListLt] at h1
  | _ :: _, [], _, h2 => by simp [charListLt] at h2
  | x :: xs, y :: ys, h1, h2 => by
    by_cases hxy : x.toNat < y.toNat
    · simp [charListLt, hxy] at h1
    · by_cases hyx : y.toNat < x.toNat
      · simp [charListLt, hyx] at h2
      · simp only [charListLt, if_neg hxy, if_neg hyx] at h1 h2
        have hn : x.toNat = y.toNat := by omega
        have hn' : x.val.toNat = y.val.toNat := hn
        have hval : x = y := Char.ext (UInt32.toNat.inj hn')
        rw [hval, charListLt_eq_of_not h1 h2]

theorem pyStrLt_asymm {a b : Node} (h : pyStrLt a b = true) : pyStrLt b a = false :=
  charListLt_asymm h

theorem pyStrLt_trans {a b c : Node} (h1 : pyStrLt a b = true)
    (h2 : pyStrLt b c = true) : pyStrLt a c = true :=
  charListLt_trans h1 h2

theorem pyStrLt_eq_of_not {a b : Node} (h1 : pyStrLt a b = false)
    (h2 : pyStrLt b a = false) : a = b :=
  String.ext (charListLt_eq_of_not h1 h2)

theorem pyTupLt_iff {a b : Wt × Node × Node} : pyTupLt a b = true ↔
    a.1 < b.1 ∨ (a.1 = b.1 ∧ (pyStrLt a.2.1 b.2.1 = true ∨
      (a.2.1 = b.2.1 ∧ pyStrLt a.2.2 b.2.2 = true))) := by
  simp [pyTupLt, Bool.or_eq_true, Bool.and_eq_true, decide_eq_true_iff]

theorem pyTupLt_asymm {a b : Wt × Node × Node} (h : pyTupLt a b = true) :
    pyTupLt b a = false := by
  rw [pyTupLt_iff] at h
  cases hba : pyTupLt b a with
  | false => rfl
  | true =>
    rw [pyTupLt_iff] at hba
    exfalso
    rcases h with h | ⟨he, h⟩ <;> rcases hba with hb | ⟨hbe, hb⟩
    · exact absurd hb (not_lt_of_lt h)
    · exact absurd hbe (ne_of_gt h)
    · exact absurd he (ne_of_gt hb)
    · rcases h with h | ⟨he2, h⟩ <;> rcases hb with hb | ⟨hbe2, hb⟩
      · exact absurd hb (by simp [pyStrLt_asymm h])
      · rw [hbe2] at h
        exact absurd h (by simp [pyStrLt_irrefl])
      · rw [← he2] at hb
        exact absurd hb (by simp [pyStrLt_irrefl])
      · exact absurd hb (by simp [pyStrLt_asymm h])

theorem pyTupLt_trans {a b c : Wt × Node × Node} (h1 : pyTupLt a b = true)
    (h2 : pyTupLt b c = true) : pyTupLt a c = true := by
  rw [pyTupLt_iff] at h1 h2 ⊢
  rcases h1 with h1 | ⟨he1, h1⟩ <;> rcases h2 with h2 | ⟨he2, h2⟩
  · exact Or.inl (lt_trans h1 h2)
  · exact Or.inl (he2 ▸ h1)
  · exact Or.inl (he1 ▸ h2)
  · refine Or.inr ⟨he1.trans he2, ?_⟩
    rcases h1 with h1 | ⟨hs1, h1⟩ <;> rcases h2 with h2 | ⟨hs2, h2⟩
    · exact Or.inl (pyStrLt_trans h1 h2)
    · exact Or.inl (hs2 ▸ h1)
    · exact Or.inl (hs1 ▸ h2)
    · exact Or.inr ⟨hs1.trans hs2, pyStrLt_trans h1 h2⟩

theorem pyTupLt_eq_of_not {a b : Wt × Node × Node} (h1 : pyTupLt a b = false)
    (h2 : pyTupLt b a = false) : a = b := by
  obtain ⟨aw, as, at'⟩ := a
  obtain ⟨bw, bs, bt⟩ := b
  have t1 : ¬ pyTupLt (aw, as, at') (bw, bs, bt) = true := by simp [h1]
  have t2 : ¬ pyTupLt (bw, bs, bt) (aw, as, at') = true := by simp [h2]
  rw [pyTupLt_iff] at t1 t2
  simp only at t1 t2
  have hw : aw = bw := by
    rcases lt_trichotomy aw bw with h | h | h
    · exact absurd (Or.inl h) t1
    · exact h
    · exact absurd (Or.inl h) t2
  subst hw
  have hs : as = bs := by
    apply pyStrLt_eq_of_not
    · cases hx : pyStrLt as bs
      · rfl
      · exact absurd (Or.inr ⟨rfl, Or.inl hx⟩) t1
    · cases hx : pyStrLt bs as
      · rfl
      · exact absurd (Or.inr ⟨rfl, Or.inl hx⟩) t2
  subst hs
  have ht : at' = bt := by
    apply pyStrLt_eq_of_not
    · cases hx : pyStrLt at' bt
      · rfl
      · exact absurd (Or.inr ⟨rfl, Or.inr ⟨rfl, hx⟩⟩) t1
    · cases hx : pyStrLt bt at'
      · rfl
      · exact absurd (Or.inr ⟨rfl, Or.inr ⟨rfl, hx⟩⟩) t2
  rw [ht]

instance : IsTotal (Wt × Node × Node) pyTupLe :=
  ⟨fun a b => by
    unfold pyTupLe
    cases h : pyTupLt b a
    · exact Or.inl rfl
    · exact Or.inr (pyTupLt_asymm h)⟩

instance : IsTrans (Wt × Node × Node) pyTupLe :=
  ⟨fun a b c h1 h2 => by
    unfold pyTupLe at h1 h2 ⊢
    cases hca : pyTupLt c a
    · rfl
    · exfalso
      cases hbc : pyTupLt b c
      · have hcb : c = b := pyTupLt_eq_of_not h2 hbc
        subst hcb
        simp [h1] at hca
      · have := pyTupLt_trans hbc hca
        simp [this] at h1⟩

instance : IsTotal (Wt × Node × Node) pyTupGe :=
  ⟨fun a b => by
    unfold pyTupGe
    cases h : pyTupLt a b
    · exact Or.inl rfl
    · exact Or.inr (pyTupLt_asymm h)⟩

instance : IsTrans (Wt × Node × Node) pyTupGe :=
  ⟨fun a b c h1 h2 => by
    unfold pyTupGe at h1 h2 ⊢
    cases hac : pyTupLt a c
    · rfl
    · exfalso
      cases hcb : pyTupLt c b
      · have hbc : b = c := pyTupLt_eq_of_not h2 hcb
        subst hbc
        simp [h1] at hac
      · have := pyTupLt_trans hac hcb
        simp [this] at h1⟩

/-! ### The edge-selection scan of `remove_cycles` always fails -/

theorem cyclesAux_mem_length {g : AdjList Node} {fuel : Nat} :
    ∀ {ks : List Node} {cc : List (List Node)},
      cyclesAux g fuel ks = .ok cc → ∀ c ∈ cc, 2 ≤ c.length := by
  intro ks
  induction ks with
  | nil =>
    intro cc h c hc
    simp only [cyclesAux] at h
    cases h
    simp at hc
  | cons node rest ih =>
    intro cc h c hc
    simp only [cyclesAux] at h
    cases hdfs : dfs g node node fuel with
    | err e => rw [hdfs] at h; cases h
    | ok paths =>
      rw [hdfs] at h
      cases hrec : cyclesAux g fuel rest with
      | err e => rw [hrec] at h; cases h
      | ok others =>
        rw [hrec] at h
        cases h
        rcases List.mem_append.mp hc with hl | hr
        · obtain ⟨p, hp, rfl⟩ := List.mem_map.mp hl
          have hne : p ≠ [] := by simpa using (List.mem_filter.mp hp).2
          cases p with
          | nil => exact absurd rfl hne
          | cons q qs => simp [List.length_cons]
        · exact ih hrec c hr

theorem cycles_mem_length {g : AdjList Node} {fuel : Nat} {cc : List (List Node)}
    (h : cycles g fuel = .ok cc) : ∀ c ∈ cc, 2 ≤ c.length :=
  cyclesAux_mem_length h

theorem cycleSlices_length {sc : List Node} (hsc : 2 ≤ sc.length) :
    ∀ s ∈ cycleSlices sc, s.length = 2 := by
  intro s hs
  simp only [cycleSlices, List.mem_map, List.mem_range] at hs
  obtain ⟨i, hi, rfl⟩ := hs
  have : 2 ≤ sc.length - i := by omega
  simp [List.length_take, List.length_drop]
  omega

theorem pyListEq_pair_row_false (es : List (Node × Node)) {s : List Node}
    (hs : s.length = 2) :
    pyListEq (es.map (fun e => PyV.pair e.1 e.2)) (s.map PyV.label) = false := by
  match es, s with
  | [], s => simp [pyListEq, hs]
  | e :: es', n :: s' => simp [pyListEq, pyEq]
  | e :: es', [] => simp at hs

theorem pyListEq_num_row_false (ws : List Wt) {s : List Node}
    (hs : s.length = 2) :
    pyListEq (ws.map PyV.num) (s.map PyV.label) = false := by
  match ws, s with
  | [], s => simp [pyListEq, hs]
  | w :: ws', n :: s' => simp [pyListEq, pyEq]
  | w :: ws', [] => simp at hs

theorem selectREdge_eq_none (loe : List (Node × Node) × List Wt)
    {scycle : List Node} (hsc : 2 ≤ scycle.length) :
    selectREdge loe scycle = none := by
  have hrow : ∀ row ∈ [loe.1.map (fun e => PyV.pair e.1 e.2), loe.2.map PyV.num],
      ((cycleSlices scycle).any (fun s => pyListEq row (s.map PyV.label))) = false := by
    intro row hrow
    rw [List.any_eq_false]
    intro s hs
    have hs2 := cycleSlices_length hsc s hs
    rcases List.mem_pair.mp hrow with rfl | rfl
    · simp [pyListEq_pair_row_false loe.1 hs2]
    · simp [pyListEq_num_row_false loe.2 hs2]
  rw [selectREdge, List.findIdx?_eq_none_iff]
  intro row hr
  simp [hrow row hr]

theorem removeCyclesStep_ne_ok (loe : List (Node × Node) × List Wt)
    (fuel : Nat) (g : Graph) : ∀ g', removeCyclesStep loe fuel g ≠ .ok g' := by
  intro g'
  unfold removeCyclesStep
  cases hcc : cycles (get_dict_nw g) fuel with
  | err e => simp
  | ok cc =>
    cases cc with
    | nil => simp
    | cons scycle rest =>
      have h2 : 2 ≤ scycle.length :=
        cycles_mem_length hcc scycle (by simp)
      simp [selectREdge_eq_none loe h2]

theorem removeCyclesLoop_ok {loe : List (Node × Node) × List Wt} {fuel : Nat} :
    ∀ {loopFuel : Nat} {g g' : Graph},
      removeCyclesLoop loe fuel loopFuel g = .ok g' → g' = g := by
  intro loopFuel
  induction loopFuel with
  | zero =>
    intro g g' h
    unfold removeCyclesLoop at h
    cases hc : cyclic (get_dict_nw g) fuel with
    | err e => rw [hc] at h; cases h
    | ok b =>
      rw [hc] at h
      cases b
      · cases h; rfl
      · cases h
  | succ lf ih =>
    intro g g' h
    unfold removeCyclesLoop at h
    cases hc : cyclic (get_dict_nw g) fuel with
    | err e => rw [hc] at h; cases h
    | ok b =>
      rw [hc] at h
      cases b
      · cases h; rfl
      · cases hstep : removeCyclesStep loe fuel g with
        | err e => rw [hstep] at h; cases h
        | ok g₀ => exact absurd hstep (removeCyclesStep_ne_ok loe fuel g g₀)

/-- Whenever `remove_cycles` returns normally, the graph it returns is the
input graph, unchanged: the only non-raising exit of the embedded loop is
the zero-iteration one. -/
theorem remove_cycles_ok {fuel : Nat} {g g' : Graph}
    (h : remove_cycles fuel g = .ok g') : g' = g := by
  unfold remove_cycles at h
  cases hle : get_list_edges g true false with
  | err e => rw [hle] at h; cases h
  | ok loe =>
    rw [hle] at h
    exact removeCyclesLoop_ok h

/-! ### `get_list_edges` in its sorted ascending mode -/

theorem zip_map_fst_snd {α β : Type} (l : List (α × β)) :
    (l.map Prod.fst).zip (l.map Prod.snd) = l := by
  induction l with
  | nil => rfl
  | cons a l ih => simp [ih]

theorem get_list_edges_sorted_ok {g : Graph} (h : naturalPairs g ≠ []) :
    get_list_edges g true false =
      .ok (((naturalPairs g).insertionSort pyTupLe).map (fun p => p.2),
           ((naturalPairs g).insertionSort pyTupLe).map (fun p => p.1)) := by
  unfold get_list_edges
  cases hs : (naturalPairs g).insertionSort pyTupLe with
  | nil =>
    exfalso
    have hp := List.perm_insertionSort pyTupLe (naturalPairs g)
    rw [hs] at hp
    exact h hp.symm.eq_nil
  | cons a as => simp [hs]

theorem get_list_edges_sorted_shape {g : Graph} {es : List (Node × Node)}
    {ws : List Wt} (h : get_list_edges g true false = .ok (es, ws)) :
    ws.zip es = (naturalPairs g).insertionSort pyTupLe := by
  by_cases hng : naturalPairs g = []
  · exfalso
    unfold get_list_edges at h
    rw [hng] at h
    simp [List.insertionSort] at h
  · rw [get_list_edges_sorted_ok hng] at h
    cases h
    exact zip_map_fst_snd _

theorem get_list_edges_sorted_desc_ok {g : Graph} (h : naturalPairs g ≠ []) :
    get_list_edges g true true =
      .ok (((naturalPairs g).insertionSort pyTupGe).map (fun p => p.2),
           ((naturalPairs g).insertionSort pyTupGe).map (fun p => p.1)) := by
  unfold get_list_edges
  cases hs : (naturalPairs g).insertionSort pyTupGe with
  | nil =>
    exfalso
    have hp := List.perm_insertionSort pyTupGe (naturalPairs g)
    rw [hs] at hp
    exact h hp.symm.eq_nil
  | cons a as => simp [hs]

theorem get_list_edges_sorted_desc_shape {g : Graph} {es : List (Node × Node)}
    {ws : List Wt} (h : get_list_edges g true true = .ok (es, ws)) :
    ws.zip es = (naturalPairs g).insertionSort pyTupGe := by
  by_cases hng : naturalPairs g = []
  · exfalso
    unfold get_list_edges at h
    rw [hng] at h
    simp [List.insertionSort] at h
  · rw [get_list_edges_sorted_desc_ok hng] at h
    cases h
    exact zip_map_fst_snd _

/-! ### Node membership: `get_list_nodes` lists exactly the mentioned nodes -/

/-- The node `x` is mentioned in the graph structure: it is a source key or a
target inside some entry. -/
def Mentions (g : Graph) (x : Node) : Prop :=
  ∃ e ∈ g, x = e.1 ∨ ∃ jw ∈ e.2, x = jw.1

theorem mem_addIfAbsent {l : List Node} {x y : Node} :
    x ∈ addIfAbsent l y ↔ x ∈ l ∨ x = y := by
  unfold addIfAbsent
  by_cases h : y ∈ l
  · simp only [if_pos h]
    constructor
    · exact Or.inl
    · rintro (hx | rfl)
      · exact hx
      · exact h
  · simp [if_neg h]

theorem mem_inner_fold {d : Inner} {x : Node} :
    ∀ {ns0 : List Node},
      x ∈ d.foldl (fun ns jw => addIfAbsent ns jw.1) ns0 ↔
        x ∈ ns0 ∨ ∃ jw ∈ d, x = jw.1 := by
  induction d with
  | nil => simp
  | cons jw d ih =>
    intro ns0
    simp only [List.foldl_cons, ih, mem_addIfAbsent, List.mem_cons]
    constructor
    · rintro ((hx | rfl) | ⟨jw', hjw', rfl⟩)
      · exact Or.inl hx
      · exact Or.inr ⟨jw, Or.inl rfl, rfl⟩
      · exact Or.inr ⟨jw', Or.inr hjw', rfl⟩
    · rintro (hx | ⟨jw', hjw' | hjw', rfl⟩)
      · exact Or.inl (Or.inl hx)
      · exact Or.inl (Or.inr (by rw [hjw']))
      · exact Or.inr ⟨jw', hjw', rfl⟩

theorem mem_get_list_nodes_fold {g : Graph} {x : Node} :
    ∀ {ns0 : List Node},
      x ∈ g.foldl
        (fun nodes e => e.2.foldl (fun ns jw => addIfAbsent ns jw.1) (addIfAbsent nodes e.1))
        ns0 ↔ x ∈ ns0 ∨ Mentions g x := by
  induction g with
  | nil => simp [Mentions]
  | cons e g ih =>
    intro ns0
    simp only [List.foldl_cons, ih, mem_inner_fold, mem_addIfAbsent, Mentions, List.mem_cons,
      exists_eq_or_imp]
    aesop

theorem mem_get_list_nodes {g : Graph} {x : Node} :
    x ∈ get_list_nodes g ↔ Mentions g x := by
  unfold get_list_nodes
  rw [mem_get_list_nodes_fold]
  simp

theorem dget_some_mem {α : Type} {d : List (Node × α)} {k : Node} {v : α}
    (h : dget d k = some v) : (k, v) ∈ d := by
  induction d with
  | nil => simp [dget] at h
  | cons e rest ih =>
    obtain ⟨k₀, v₀⟩ := e
    by_cases h0 : k₀ = k
    · subst h0
      simp only [dget, if_pos rfl] at h
      cases h
      exact List.mem_cons_self _ _
    · simp only [dget, if_neg h0] at h
      exact List.mem_cons_of_mem _ (ih h)

theorem mem_dset_key {α : Type} (d : List (Node × α)) (k : Node) (v : α) :
    ∃ e ∈ dset d k v, e.1 = k ∧ e.2 = v := by
  induction d with
  | nil => exact ⟨(k, v), by simp [dset]⟩
  | cons e₀ rest ih =>
    obtain ⟨k₀, v₀⟩ := e₀
    by_cases h0 : k₀ = k
    · exact ⟨(k₀, v), by simp [dset, h0]⟩
    · obtain ⟨e, he, hk, hv⟩ := ih
      exact ⟨e, by simp [dset, h0, he], hk, hv⟩

theorem mem_of_mem_dset {α : Type} {d : List (Node × α)} {k : Node} {v : α}
    {e : Node × α} (h : e ∈ dset d k v) : e ∈ d ∨ (e.1 = k ∧ e.2 = v) := by
  induction d with
  | nil =>
    simp [dset] at h
    simp [h]
  | cons e₀ rest ih =>
    obtain ⟨k₀, v₀⟩ := e₀
    by_cases h0 : k₀ = k
    · subst h0
      simp only [dset, if_true, eq_self_iff_true, List.mem_cons] at h
      rcases h with h1 | h1
      · exact Or.inr (by simp [h1])
      · exact Or.inl (List.mem_cons_of_mem _ h1)
    · simp only [dset, if_neg h0, List.mem_cons] at h
      rcases h with h1 | h1
      · exact Or.inl (by simp [h1])
      · rcases ih h1 with h2 | h2
        · exact Or.inl (List.mem_cons_of_mem _ h2)
        · exact Or.inr h2

theorem mem_dset_of_mem {α : Type} {d : List (Node × α)} (k : Node) (v : α)
    {e : Node × α} (h : e ∈ d) :
    e ∈ dset d k v ∨ (e.1 = k ∧ dget d k = some e.2) := by
  induction d with
  | nil => simp at h
  | cons e₀ rest ih =>
    obtain ⟨k₀, v₀⟩ := e₀
    by_cases h0 : k₀ = k
    · subst h0
      rcases List.mem_cons.mp h with rfl | h
      · exact Or.inr ⟨rfl, by simp [dget]⟩
      · exact Or.inl (by simp [dset, List.mem_cons, h])
    · rcases List.mem_cons.mp h with rfl | h
      · exact Or.inl (by simp [dset, h0])
      · rcases ih h with hh | ⟨hk, hv⟩
        · exact Or.inl (by simp [dset, h0, hh])
        · exact Or.inr ⟨hk, by simp [dget, h0, hv]⟩

theorem mentions_add {g : Graph} {a b : Node} {w : Wt} {x : Node} :
    Mentions (add g a b w) x ↔ x = a ∨ x = b ∨ Mentions g x := by
  unfold add defaultGet
  cases hga : dget g a with
  | none =>
    have : dset (g ++ [(a, [])]) a (dset ([] : Inner) b w) = g ++ [(a, [(b, w)])] :=
      dget_eq_none_append g a [] [(b, w)] hga
    simp only [this]
    unfold Mentions
    simp only [List.mem_append, List.mem_singleton]
    constructor
    · rintro ⟨e, he | rfl, hm⟩
      · exact Or.inr (Or.inr ⟨e, he, hm⟩)
      · rcases hm with rfl | ⟨jw, hjw, rfl⟩
        · exact Or.inl rfl
        · simp at hjw
          subst hjw
          exact Or.inr (Or.inl rfl)
    · rintro (rfl | rfl | ⟨e, he, hm⟩)
      · exact ⟨(x, [(b, w)]), Or.inr rfl, Or.inl rfl⟩
      · exact ⟨(a, [(x, w)]), Or.inr rfl, Or.inr ⟨(x, w), by simp⟩⟩
      · exact ⟨e, Or.inl he, hm⟩
  | some d =>
    simp only []
    unfold Mentions
    constructor
    · rintro ⟨e, he, hm⟩
      rcases mem_of_mem_dset he with he' | ⟨hek, hev⟩
      · exact Or.inr (Or.inr ⟨e, he', hm⟩)
      · rcases hm with rfl | ⟨jw, hjw, rfl⟩
        · exact Or.inl hek
        · rw [hev] at hjw
          rcases mem_of_mem_dset hjw with hjw' | ⟨hjk, hjv⟩
          · exact Or.inr (Or.inr ⟨(a, d), dget_some_mem hga, Or.inr ⟨jw, hjw', rfl⟩⟩)
          · exact Or.inr (Or.inl hjk)
    · rintro (rfl | rfl | ⟨e, he, hm⟩)
      · obtain ⟨e, he, hk, _⟩ := mem_dset_key g x (dset d b w)
        exact ⟨e, he, Or.inl hk.symm⟩
      · obtain ⟨e, he, hk, hv⟩ := mem_dset_key g a (dset d x w)
        obtain ⟨jw, hjw, hjk, _⟩ := mem_dset_key d x w
        exact ⟨e, he, Or.inr ⟨jw, hv ▸ hjw, hjk.symm⟩⟩
      · rcases mem_dset_of_mem a (dset d b w) he with he' | ⟨hek, hev⟩
        · exact ⟨e, he', hm⟩
        · rw [hga] at hev
          have hed : e.2 = d := by injection hev with h; exact h.symm
          rcases hm with rfl | ⟨jw, hjw, rfl⟩
          · obtain ⟨e', he', hk, _⟩ := mem_dset_key g a (dset d b w)
            exact ⟨e', he', Or.inl (hek.trans hk.symm)⟩
          · rw [hed] at hjw
            rcases mem_dset_of_mem b w hjw with hjw' | ⟨hjk, _⟩
            · obtain ⟨e', he', _, hv⟩ := mem_dset_key g a (dset d b w)
              refine ⟨e', he', Or.inr ⟨jw, ?_, rfl⟩⟩
              rw [hv]
              exact hjw'
            · obtain ⟨e', he', _, hv⟩ := mem_dset_key g a (dset d b w)
              obtain ⟨jw', hjw'', hjk', _⟩ := mem_dset_key d b w
              refine ⟨e', he', Or.inr ⟨jw', ?_, hjk.trans hjk'.symm⟩⟩
              rw [hv]
              exact hjw''

theorem mentions_nil {x : Node} : ¬ Mentions ([] : Graph) x := by
  simp [Mentions]

theorem mentions_add_edges {ts : List (Node × Node × Wt)} {x : Node} :
    ∀ {g : Graph}, Mentions (add_edges g ts) x ↔ Mentions g x ∨ x ∈ tripleNodes ts := by
  induction ts with
  | nil =>
    intro g
    simp [add_edges, tripleNodes]
  | cons t ts ih =>
    intro g
    have hstep : add_edges g (t :: ts) = add_edges (add g t.1 t.2.1 t.2.2) ts := rfl
    rw [hstep, ih, mentions_add]
    simp only [tripleNodes, List.flatMap_cons, List.mem_append, List.mem_cons,
      List.mem_singleton, List.not_mem_nil, or_false]
    tauto

theorem mem_get_list_nodes_graphOfTriples {ts : List (Node × Node × Wt)} {x : Node} :
    x ∈ get_list_nodes (graphOfTriples ts) ↔ x ∈ tripleNodes ts := by
  rw [mem_get_list_nodes]
  unfold graphOfTriples
  rw [mentions_add_edges]
  simp [Mentions]

/-! ### Behaviour of `remove_edge` and `reverse_edge` on present and
absent edges -/

/-- Whether a method call returned normally. -/
def pyOkB : PyResult → Bool
  | .ok _ => true
  | .exn _ _ => false

/-- The graph state after a method call (also past an exception). -/
def resGraph : PyResult → Graph
  | .ok g => g
  | .exn _ g => g

/-- Whether a method call raised `KeyError`. -/
def isKeyErr : PyResult → Bool
  | .exn .keyError _ => true
  | _ => false

theorem keys_dset_present {α : Type} {d : List (Node × α)} {k : Node} {v₀ : α}
    (h : dget d k = some v₀) (v : α) :
    (dset d k v).map Prod.fst = d.map Prod.fst := by
  induction d with
  | nil => simp [dget] at h
  | cons e rest ih =>
    obtain ⟨k₀, w₀⟩ := e
    by_cases h0 : k₀ = k
    · subst h0
      simp [dset]
    · simp only [dget, if_neg h0] at h
      simp [dset, h0, ih h]

theorem edgeWeight_add_self (g : Graph) (a b : Node) (w : Wt) :
    edgeWeight (add g a b w) a b = some w := by
  unfold add defaultGet edgeWeight
  cases hga : dget g a with
  | some d => simp [dget_dset_eq, dget]
  | none => simp [dget_dset_eq, dget]

theorem edgeWeight_add_other {g : Graph} {n1 n2 a b : Node} {w : Wt}
    (h : a ≠ n1) : edgeWeight (add g n1 n2 w) a b = edgeWeight g a b := by
  unfold add defaultGet edgeWeight
  cases hg : dget g n1 with
  | some d => rw [dget_dset_ne _ _ _ _ h]
  | none => rw [dget_dset_ne _ _ _ _ h, dget_append_ne _ _ _ _ h]

theorem defaultGet_some {g : Graph} {k : Node} {d : Inner}
    (h : dget g k = some d) : defaultGet g k = (d, g) := by
  unfold defaultGet
  rw [h]

theorem defaultGet_none {g : Graph} {k : Node}
    (h : dget g k = none) : defaultGet g k = ([], g ++ [(k, [])]) := by
  unfold defaultGet
  rw [h]

theorem remove_edge_present {g : Graph} {s : Node} (t : Node) {d : Inner}
    (hs : dget g s = some d) (ht : (dget d t).isSome = true) :
    ∃ g₃, remove_edge g s t = .ok g₃ ∧
      (∀ a b, a ≠ s → edgeWeight g₃ a b = edgeWeight g a b) ∧
      (WFGraph g → edgeWeight g₃ s t = none) := by
  cases hdt : dget d t with
  | none => rw [hdt] at ht; simp at ht
  | some w₀ =>
    have hre : remove_edge g s t =
        if (ddel d t).length = 0 then .ok (ddel (dset g s (ddel d t)) s)
        else .ok (dset g s (ddel d t)) := by
      unfold remove_edge
      rw [defaultGet_some hs]
      simp only [hdt]
    by_cases hlen : (ddel d t).length = 0
    · refine ⟨ddel (dset g s (ddel d t)) s, by rw [hre, if_pos hlen], ?_, ?_⟩
      · intro a b hne
        unfold edgeWeight
        rw [dget_ddel_ne _ _ _ hne, dget_dset_ne _ _ _ _ hne]
      · intro hWF
        unfold edgeWeight
        rw [dget_ddel_self]
        rw [keys_dset_present hs]
        exact hWF.1
    · refine ⟨dset g s (ddel d t), by rw [hre, if_neg hlen], ?_, ?_⟩
      · intro a b hne
        unfold edgeWeight
        rw [dget_dset_ne _ _ _ _ hne]
      · intro hWF
        unfold edgeWeight
        rw [dget_dset_eq]
        exact dget_ddel_self _ _ (hWF.2 (s, d) (dget_some_mem hs))

theorem edgeWeight_some_parts {g : Graph} {s t : Node} {w : Wt}
    (h : edgeWeight g s t = some w) :
    ∃ d, dget g s = some d ∧ dget d t = some w := by
  unfold edgeWeight at h
  cases hs : dget g s with
  | none => rw [hs] at h; cases h
  | some d => rw [hs] at h; exact ⟨d, rfl, h⟩

theorem reverseCont_of_ok {n1 n2 : Node} {g' g₂ : Graph} {w : Wt}
    (h : remove_edge g' n1 n2 = .ok g₂) :
    reverseCont n1 n2 g' w = .ok (add g₂ n2 n1 w) := by
  unfold reverseCont
  rw [h]

theorem reverseFalsy_present {g : Graph} {s t : Node} {d : Inner} {w0 : Wt}
    (hs : dget g s = some d) (hdt : dget d t = some w0) :
    reverseFalsy g s t = reverseCont s t g w0 := by
  unfold reverseFalsy
  simp only [defaultGet_some hs, hdt]

theorem reverseFalsy_absent_key {g : Graph} {s t : Node} {d : Inner}
    (hs : dget g s = some d) (hdt : dget d t = none) :
    reverseFalsy g s t = .exn .keyError g := by
  unfold reverseFalsy
  simp only [defaultGet_some hs, hdt]

theorem reverseFalsy_absent_src {g : Graph} {s t : Node}
    (hs : dget g s = none) :
    reverseFalsy g s t = .exn .keyError (g ++ [(s, [])]) := by
  unfold reverseFalsy
  simp only [defaultGet_none hs, dget]

theorem reverseCont_present {g g₃ : Graph} {s t : Node} (w : Wt)
    (hrem : remove_edge g s t = .ok g₃)
    (hnone : s ≠ t → edgeWeight g₃ s t = none) :
    reverseCont s t g w = .ok (add g₃ t s w) ∧
    edgeWeight (add g₃ t s w) t s = some w ∧
    edgeWeight (add g₃ t s w) s t = (if s = t then some w else none) := by
  refine ⟨reverseCont_of_ok hrem, edgeWeight_add_self _ _ _ _, ?_⟩
  by_cases hst : s = t
  · subst hst
    rw [if_pos rfl]
    exact edgeWeight_add_self _ _ _ _
  · rw [if_neg hst, edgeWeight_add_other hst, hnone hst]

theorem reverse_edge_present {g : Graph} {s t : Node} {w0 : Wt} (ow : Option Wt)
    (hWF : WFGraph g) (hEdge : edgeWeight g s t = some w0) :
    ∃ r, reverse_edge g s t ow = .ok r ∧
      edgeWeight r t s = some (match ow with
        | none => w0
        | some nw => if nw = 0 then w0 else nw) ∧
      edgeWeight r s t = (if s = t then
        some (match ow with
          | none => w0
          | some nw => if nw = 0 then w0 else nw)
        else none) := by
  obtain ⟨d, hs, hdt⟩ := edgeWeight_some_parts hEdge
  obtain ⟨g₃, hrem, hother, hself⟩ :=
    remove_edge_present t hs (by simp [hdt])
  have hnone : s ≠ t → edgeWeight g₃ s t = none := fun _ => hself hWF
  cases ow with
  | none =>
    obtain ⟨hc, h1, h2⟩ := reverseCont_present w0 hrem hnone
    refine ⟨add g₃ t s w0, ?_, h1, h2⟩
    show reverseFalsy g s t = _
    rw [reverseFalsy_present hs hdt]
    exact hc
  | some nw =>
    by_cases h0 : nw = 0
    · subst h0
      obtain ⟨hc, h1, h2⟩ := reverseCont_present w0 hrem hnone
      refine ⟨add g₃ t s w0, ?_, h1, h2⟩
      show (if (0 : Wt) = 0 then reverseFalsy g s t else reverseCont s t g 0) = _
      rw [if_pos rfl, reverseFalsy_present hs hdt]
      exact hc
    · obtain ⟨hc, h1, h2⟩ := reverseCont_present nw hrem hnone
      refine ⟨add g₃ t s nw, ?_, ?_, ?_⟩
      · show (if nw = 0 then reverseFalsy g s t else reverseCont s t g nw) = _
        rw [if_neg h0]
        exact hc
      · simpa [h0] using h1
      · simpa [h0] using h2

theorem remove_edge_absent {g : Graph} {s t : Node}
    (h : edgeWeight g s t = none) :
    remove_edge g s t = .exn .keyError (if (dget g s).isSome then g else g ++ [(s, [])]) := by
  unfold remove_edge
  unfold edgeWeight at h
  cases hs : dget g s with
  | none =>
    rw [defaultGet_none hs]
    simp [dget, hs]
  | some d =>
    rw [hs] at h
    simp only at h
    rw [defaultGet_some hs]
    simp [h, hs]

theorem reverse_edge_absent {g : Graph} {s t : Node} (ow : Option Wt)
    (h : edgeWeight g s t = none) :
    isKeyErr (reverse_edge g s t ow) = true := by
  have habs := remove_edge_absent h
  have hfalsy : isKeyErr (reverseFalsy g s t) = true := by
    unfold edgeWeight at h
    cases hs : dget g s with
    | none => rw [reverseFalsy_absent_src hs]; rfl
    | some d =>
      rw [hs] at h
      rw [reverseFalsy_absent_key hs h]
      rfl
  cases ow with
  | none => exact hfalsy
  | some nw =>
    by_cases h0 : nw = 0
    · subst h0
      show isKeyErr (if (0 : Wt) = 0 then reverseFalsy g s t else reverseCont s t g 0) = true
      rw [if_pos rfl]
      exact hfalsy
    · show isKeyErr (if nw = 0 then reverseFalsy g s t else reverseCont s t g nw) = true
      rw [if_neg h0]
      unfold reverseCont
      rw [habs]
      rfl

/-! ## The claims -/

/-- The 3-cycle input graph `1→2→3→1`, all edges of weight 1. -/
def graphC1 : Graph :=
  graphOfTriples [("1", "2", 1), ("2", "3", 1), ("3", "1", 1)]

/-- The 2-cycle input graph `A→B (w=0.3)`, `B→A (w=0.1)`. -/
def graphC2 : Graph :=
  graphOfTriples [("A", "B", mkRat 3 10), ("B", "A", mkRat 1 10)]

/-- The graph with edges of weights `[0.5, 0.2, 0.2, 0.9]` in insertion
order, the two 0.2-weight edges being `c→d` (inserted first) and `b→e`
(inserted second). -/
def graphC4 : Graph :=
  graphOfTriples
    [("a", "x", mkRat 1 2), ("c", "d", mkRat 1 5), ("b", "e", mkRat 1 5),
     ("d", "f", mkRat 9 10)]

/-- The self-loop graph `X→X (w=1)` plus the acyclic edge `Y→Z (w=0.5)`. -/
def graphC9 : Graph :=
  graphOfTriples [("X", "X", 1), ("Y", "Z", mkRat 1 2)]

/-- An acyclic one-edge input, used to witness the acyclic-path
theorems. -/
def graphAcyclic : Graph :=
  graphOfTriples [("a", "b", 1)]

/-- Modelled from the spec: the edge ordering the spec's tie-break
sentence describes — a stable sort by weight alone, equal-weight edges
keeping the store's natural iteration order.  (The source instead sorts
the whole `(weight, [source, target])` tuples; this definition exists
only to be compared against the source's order.) -/
def specWeightOnlyLe (a b : Wt × Node × Node) : Prop :=
  a.1 ≤ b.1

instance : DecidableRel specWeightOnlyLe :=
  fun a b => inferInstanceAs (Decidable (a.1 ≤ b.1))

/-- Modelled from the spec: the edge list that the claimed
insertion-order tie-break would produce for ascending weights. -/
def claimedEdgeOrder (g : Graph) : List (Node × Node) :=
  ((naturalPairs g).insertionSort specWeightOnlyLe).map (fun p => p.2)

/-- C1: on the finite cyclic input `1→2→3→1`, `remove_cycles` does not
drive the graph to acyclicity: the edge-selection `next(...)` of its
first iteration scans the `(list_edges, weights)` tuple instead of the
edge list, matches nothing, and raises `StopIteration` while the cycle
test on the unweighted view still reports a cycle. -/
theorem remove_cycles_C1_stopIteration :
    remove_cycles 30 graphC1 = .err .stopIteration ∧
    cyclic (get_dict_nw graphC1) 30 = .ok true :=
  ⟨by decide, by decide⟩

/-- C2: on the 2-cycle `A→B (w=0.3)`, `B→A (w=0.1)` the weaker edge
`B→A` is never deleted: `remove_cycles` raises `StopIteration` in its
first iteration, with both edges still present at the raise. -/
theorem remove_cycles_C2_stopIteration :
    edgeWeight graphC2 "A" "B" = some (mkRat 3 10) ∧
    edgeWeight graphC2 "B" "A" = some (mkRat 1 10) ∧
    remove_cycles 30 graphC2 = .err .stopIteration :=
  ⟨by decide, by decide, by decide⟩

/-- C3: whenever `remove_cycles` returns normally on a graph built from
an input triple list, the node set reported by `get_list_nodes` equals
the set of nodes mentioned in the triples. -/
theorem remove_cycles_preserves_node_set (ts : List (Node × Node × Wt))
    (fuel : Nat) (g' : Graph)
    (h : remove_cycles fuel (graphOfTriples ts) = .ok g') :
    (get_list_nodes g').toFinset = (tripleNodes ts).toFinset := by
  have hg := remove_cycles_ok h
  subst hg
  ext x
  simp only [List.mem_toFinset]
  exact mem_get_list_nodes_graphOfTriples

/-- Witness for C3 at the concrete acyclic input `[("a", "b", 1)]`. -/
theorem remove_cycles_preserves_node_set_witness :
    remove_cycles 5 (graphOfTriples [("a", "b", 1)]) = .ok graphAcyclic ∧
    (get_list_nodes graphAcyclic).toFinset = (tripleNodes [("a", "b", 1)]).toFinset :=
  ⟨by decide,
   remove_cycles_preserves_node_set [("a", "b", 1)] 5 graphAcyclic (by decide)⟩

/-- C4 counterexample: with insertion order `a→x (0.5)`, `c→d (0.2)`,
`b→e (0.2)`, `d→f (0.9)`, the two equal-weight edges come out as
`b→e` before `c→d` — the reverse of their insertion order, because the
sort compares the `[source, target]` lists on ties — while the claimed
insertion-order tie-break would keep `c→d` first. -/
theorem get_list_edges_C4_tiebreak_cex :
    get_list_edges graphC4 true false =
      .ok ([("b", "e"), ("c", "d"), ("a", "x"), ("d", "f")],
           [mkRat 1 5, mkRat 1 5, mkRat 1 2, mkRat 9 10]) ∧
    claimedEdgeOrder graphC4 = [("c", "d"), ("b", "e"), ("a", "x"), ("d", "f")] ∧
    ([("b", "e"), ("c", "d"), ("a", "x"), ("d", "f")] : List (Node × Node)) ≠
      [("c", "d"), ("b", "e"), ("a", "x"), ("d", "f")] :=
  ⟨by decide, by decide, by decide⟩

/-- C4 (amended): the sorted `get_list_edges` output, in either
direction, is a permutation of the natural-iteration rows ordered under
the full Python tuple comparison of `(weight, [source, target])`:
ascending weights under `pyTupLe` (descending under `pyTupGe` when
`descending=True`), with weight ties broken by the lexicographic order
of the `[source, target]` label lists — not by insertion order. -/
theorem get_list_edges_sorted_lex (g : Graph) (descending : Bool)
    (es : List (Node × Node)) (ws : List Wt)
    (h : get_list_edges g true descending = .ok (es, ws)) :
    (ws.zip es).Perm (naturalPairs g) ∧
    (ws.zip es).Pairwise (if descending then pyTupGe else pyTupLe) := by
  cases descending with
  | false =>
    rw [get_list_edges_sorted_shape h]
    refine ⟨List.perm_insertionSort _ _, ?_⟩
    show List.Pairwise pyTupLe _
    exact List.sorted_insertionSort _ _
  | true =>
    rw [get_list_edges_sorted_desc_shape h]
    refine ⟨List.perm_insertionSort _ _, ?_⟩
    show List.Pairwise pyTupGe _
    exact List.sorted_insertionSort _ _

/-- Witness for the amended C4 at the concrete four-edge graph, in both
sort directions. -/
theorem get_list_edges_sorted_lex_witness :
    (([mkRat 1 5, mkRat 1 5, mkRat 1 2, mkRat 9 10] : List Wt).zip
        ([("b", "e"), ("c", "d"), ("a", "x"), ("d", "f")] : List (Node × Node))).Perm
      (naturalPairs graphC4) ∧
    (([mkRat 1 5, mkRat 1 5, mkRat 1 2, mkRat 9 10] : List Wt).zip
        ([("b", "e"), ("c", "d"), ("a", "x"), ("d", "f")] : List (Node × Node))).Pairwise
      pyTupLe ∧
    (([mkRat 9 10, mkRat 1 2, mkRat 1 5, mkRat 1 5] : List Wt).zip
        ([("d", "f"), ("a", "x"), ("c", "d"), ("b", "e")] : List (Node × Node))).Perm
      (naturalPairs graphC4) ∧
    (([mkRat 9 10, mkRat 1 2, mkRat 1 5, mkRat 1 5] : List Wt).zip
        ([("d", "f"), ("a", "x"), ("c", "d"), ("b", "e")] : List (Node × Node))).Pairwise
      pyTupGe :=
  ⟨(get_list_edges_sorted_lex graphC4 false
      [("b", "e"), ("c", "d"), ("a", "x"), ("d", "f")]
      [mkRat 1 5, mkRat 1 5, mkRat 1 2, mkRat 9 10] (by decide)).1,
   (get_list_edges_sorted_lex graphC4 false
      [("b", "e"), ("c", "d"), ("a", "x"), ("d", "f")]
      [mkRat 1 5, mkRat 1 5, mkRat 1 2, mkRat 9 10] (by decide)).2,
   (get_list_edges_sorted_lex graphC4 true
      [("d", "f"), ("a", "x"), ("c", "d"), ("b", "e")]
      [mkRat 9 10, mkRat 1 2, mkRat 1 5, mkRat 1 5] (by decide)).1,
   (get_list_edges_sorted_lex graphC4 true
      [("d", "f"), ("a", "x"), ("c", "d"), ("b", "e")]
      [mkRat 9 10, mkRat 1 2, mkRat 1 5, mkRat 1 5] (by decide)).2⟩

/-- C5 counterexample: the empty graph is acyclic, yet `remove_cycles`
raises `ValueError` on it — the initial `get_list_edges()` call unpacks
`zip(*sorted([]))`, which is empty, into two variables. -/
theorem remove_cycles_C5_empty_cex :
    remove_cycles 5 ([] : Graph) = .err .valueError ∧
    cyclic (get_dict_nw ([] : Graph)) 5 = .ok false :=
  ⟨by decide, by decide⟩

/-- C5 (amended): on an already-acyclic input with at least one edge,
`remove_cycles` performs zero loop iterations and returns the graph —
hence its edge set — unchanged. -/
theorem remove_cycles_acyclic_id (g : Graph) (fuel : Nat)
    (hne : naturalPairs g ≠ [])
    (hac : cyclic (get_dict_nw g) fuel = .ok false) :
    remove_cycles fuel g = .ok g := by
  unfold remove_cycles
  rw [get_list_edges_sorted_ok hne]
  cases fuel with
  | zero => simp [removeCyclesLoop, hac]
  | succ n => simp [removeCyclesLoop, hac]

/-- Witness for the amended C5 at the concrete one-edge acyclic graph. -/
theorem remove_cycles_acyclic_id_witness :
    naturalPairs graphAcyclic ≠ [] ∧
    cyclic (get_dict_nw graphAcyclic) 5 = .ok false ∧
    remove_cycles 5 graphAcyclic = .ok graphAcyclic :=
  ⟨by decide, by decide, remove_cycles_acyclic_id graphAcyclic 5 (by decide) (by decide)⟩

/-- C6 counterexample: removing the absent edge `c→d` from the graph
`{a: {b: 1}}` raises `KeyError` but leaves behind a freshly vivified
empty adjacency entry for `c`: the state is changed, and an entry with
zero targets persists. -/
theorem remove_edge_C6_vivifies_cex :
    remove_edge [("a", [("b", 1)])] "c" "d"
      = .exn .keyError [("a", [("b", 1)]), ("c", [])] ∧
    ([("a", [("b", 1)]), ("c", [])] : Graph) ≠ [("a", [("b", 1)])] :=
  ⟨by decide, by decide⟩

/-- C6 (amended): `remove_edge` on an absent edge raises `KeyError`; the
state is unchanged when the source already has an adjacency entry, but
when the source has none, the bare `defaultdict` read first appends an
empty adjacency entry for it, and that empty entry persists past the
exception. -/
theorem remove_edge_absent_spec (g : Graph) (s t : Node)
    (h : edgeWeight g s t = none) :
    remove_edge g s t =
      .exn .keyError (if (dget g s).isSome then g else g ++ [(s, [])]) :=
  remove_edge_absent h

/-- Witness for the amended C6 at a concrete graph with the source `c`
absent. -/
theorem remove_edge_absent_spec_witness :
    edgeWeight [("a", [("b", 1)])] "c" "d" = none ∧
    remove_edge [("a", [("b", 1)])] "c" "d" =
      .exn .keyError
        (if (dget ([("a", [("b", 1)])] : Graph) "c").isSome then
          ([("a", [("b", 1)])] : Graph)
        else [("a", [("b", 1)])] ++ [("c", [])]) :=
  ⟨by decide, remove_edge_absent_spec [("a", [("b", 1)])] "c" "d" (by decide)⟩

/-- C7 counterexample: reversing `a→b (w=2)` with the explicit new
weight `0` produces `b→a` carrying the original weight `2`, not the
given `0`: Python's `if not weight:` treats `0.0` as "no weight
given". -/
theorem reverse_edge_C7_zero_weight_cex :
    reverse_edge [("a", [("b", 2)])] "a" "b" (some 0) = .ok [("b", [("a", 2)])] ∧
    edgeWeight [("b", [("a", 2)])] "b" "a" = some 2 ∧ (2 : Wt) ≠ 0 :=
  ⟨by decide, by decide, by decide⟩

/-- C7 (amended): on a graph with the Python-dict unique-key invariant,
`reverse_edge` on a present edge removes `(source, target)` and adds
`(target, source)` carrying the given weight when that weight is nonzero,
and the original edge weight when the weight is not given or is `0`
(Python falsiness); for a self-loop (`source = target`) the re-added
edge is that same edge, which afterwards carries that weight; on an
absent edge it raises `KeyError`. -/
theorem reverse_edge_spec (g : Graph) (s t : Node) (ow : Option Wt)
    (hWF : WFGraph g) :
    (∀ w0 : Wt, edgeWeight g s t = some w0 →
      pyOkB (reverse_edge g s t ow) = true ∧
      edgeWeight (resGraph (reverse_edge g s t ow)) t s =
        some (match ow with
          | none => w0
          | some nw => if nw = 0 then w0 else nw) ∧
      edgeWeight (resGraph (reverse_edge g s t ow)) s t = (if s = t then
        some (match ow with
          | none => w0
          | some nw => if nw = 0 then w0 else nw)
        else none)) ∧
    (edgeWeight g s t = none → isKeyErr (reverse_edge g s t ow) = true) := by
  constructor
  · intro w0 hmem
    obtain ⟨r, hr, hts, hst'⟩ := reverse_edge_present ow hWF hmem
    rw [hr]
    exact ⟨rfl, hts, hst'⟩
  · exact reverse_edge_absent ow

/-- Witness for the amended C7: reversing `a→b (w=2)` with new weight
`5` yields `b→a (w=5)` and removes `a→b`. -/
theorem reverse_edge_spec_witness :
    WFGraph [("a", [("b", 2)])] ∧
    (pyOkB (reverse_edge [("a", [("b", 2)])] "a" "b" (some 5)) = true ∧
      edgeWeight (resGraph (reverse_edge [("a", [("b", 2)])] "a" "b" (some 5))) "b" "a" =
        some (if (5 : Wt) = 0 then 2 else 5) ∧
      edgeWeight (resGraph (reverse_edge [("a", [("b", 2)])] "a" "b" (some 5))) "a" "b" =
        (if ("a" : Node) = "b" then some (if (5 : Wt) = 0 then 2 else 5) else none)) :=
  ⟨by decide,
   (reverse_edge_spec [("a", [("b", 2)])] "a" "b" (some 5) (by decide)).1 2
     (by decide)⟩

/-- C8: the cycle enumerator reports the 3-cycle once per starting node,
with the start node at both ends — but on `{1: (2,), 2: (3,), 3: (4,)}`
it raises `KeyError` (node 4 has no adjacency entry and `graph[state]`
is a plain-dict subscript) instead of returning the empty list its own
doctest promises. -/
theorem cycles_C8_keyError :
    cycles [(1, [2]), (2, [3]), (3, [1])] 30 =
      .ok [[1, 2, 3, 1], [2, 3, 1, 2], [3, 1, 2, 3]] ∧
    cycles [(1, [2]), (2, [3]), (3, [4])] 30 = .err .keyError :=
  ⟨by decide, by decide⟩

/-- C9: on the self-loop graph `X→X (w=1)` plus the acyclic edge
`Y→Z (w=0.5)`, the self-loop is detected as the 1-cycle `[X, X]`, but
`remove_cycles` raises `StopIteration` in its first iteration instead of
deleting the self-loop edge. -/
theorem remove_cycles_C9_stopIteration :
    cycles (get_dict_nw graphC9) 30 = .ok [["X", "X"]] ∧
    remove_cycles 30 graphC9 = .err .stopIteration :=
  ⟨by decide, by decide⟩

/-- C10: when both `a→b` and `b→a` are present (distinct nodes,
well-formed dict), `reverse_edge(a, b)` merges the reversed edge into
the existing opposite edge: afterwards `b→a` is the only edge between
the two nodes and it carries the former weight of `a→b`; the former
weight of `b→a` is overwritten. -/
theorem reverse_edge_merges_opposite (g : Graph) (a b : Node) (w1 w2 : Wt)
    (hWF : WFGraph g) (hne : a ≠ b)
    (hab : edgeWeight g a b = some w1) (hba : edgeWeight g b a = some w2) :
    pyOkB (reverse_edge g a b none) = true ∧
    edgeWeight (resGraph (reverse_edge g a b none)) b a = some w1 ∧
    edgeWeight (resGraph (reverse_edge g a b none)) a b = none := by
  obtain ⟨r, hr, hts, hst'⟩ := reverse_edge_present none hWF hab
  rw [hr]
  refine ⟨rfl, hts, ?_⟩
  show edgeWeight r a b = none
  rw [hst', if_neg hne]

/-- Witness for C10: with `a→b (w=3)` and `b→a (w=7)`, reversing `a→b`
leaves exactly `b→a (w=3)`. -/
theorem reverse_edge_merges_opposite_witness :
    WFGraph [("a", [("b", 3)]), ("b", [("a", 7)])] ∧
    pyOkB (reverse_edge [("a", [("b", 3)]), ("b", [("a", 7)])] "a" "b" none) = true ∧
    edgeWeight
      (resGraph (reverse_edge [("a", [("b", 3)]), ("b", [("a", 7)])] "a" "b" none))
      "b" "a" = some 3 ∧
    edgeWeight
      (resGraph (reverse_edge [("a", [("b", 3)]), ("b", [("a", 7)])] "a" "b" none))
      "a" "b" = none :=
  ⟨by decide,
   reverse_edge_merges_opposite [("a", [("b", 3)]), ("b", [("a", 7)])] "a" "b" 3 7
     (by decide) (by decide) (by decide) (by decide)⟩

end CDT

-- Sanity checks against the doctests of `cyclic` (Graph.py lines 18-22).
example : CDT.cyclic [(1, [2]), (2, [3]), (3, [1])] 10 = .ok true := by decide
example : CDT.cyclic [(1, [2]), (2, [3]), (3, [4])] 10 = .ok false := by decide
